import Mathlib

/-!
Verification of the extglob/snapdragon parser and renderer engines.

The repository has two engine variants:
* the fixed-table engine (`lib/extglob/parser.js`): a `Parser` holding a
  dispatch table `parsers`/`types`, a nesting tracker (`stack` plus the
  per-kind `sets` map and `count`), and a `parse` loop that runs every
  registered handler per pass and raises a fatal error when a full pass
  consumes nothing while input remains;
* the middleware-mode engine (`snapdragon/lib/parser.js`, concatenated in
  the same source file): a `Parser` with an `fns` list run by
  `Parser.prototype.run`, and a `parse` that appends to `original`/`input`
  and pushes nodes while a middleware keeps matching;
and a renderer engine (`snapdragon/lib/renderer.js`) dispatching on node
type via `visit`/`mapVisit`/`render`.

Text is modelled as `List Char` (JS strings).  All definitions are
translated from the source; the few places where a JS idiom needs a value
encoding (object aliasing between the two tracker stacks, fuel for the
`while` loops, with a proven fuel-sufficiency lemma) are noted in comments
at the definition.
-/
/-- An AST node, after `lib/extglob/parser.js`: every node carries a `type`
tag, a consumed value `val` (empty for structural nodes) and a `nodes`
children list (empty for non-container nodes).  Diagnostic fields
(`parsed`, `rest`, `position`, the non-owning `parent` back-reference) are
not represented: no claim reads them back. -/
inductive Node where
  | mk (type : String) (val : List Char) (nodes : List Node)

/-- The `type` tag of a node. -/
def Node.type : Node → String
  | .mk t _ _ => t

/-- The raw consumed value of a node. -/
def Node.val : Node → List Char
  | .mk _ v _ => v

/-- The children of a node. -/
def Node.nodes : Node → List Node
  | .mk _ _ ns => ns

/-- The `bos` node created in the `Parser` constructor: `{type: 'bos', val: ''}`. -/
def bosN : Node := Node.mk "bos" [] []

/-- The end-of-stream sentinel built by `Parser.prototype.eos`:
`{type: 'eos', val: this.append || ''}` with `this.append` never set. -/
def eosN : Node := Node.mk "eos" [] []

/-- The `paren.open` node built by the open half of `pair` for the
concrete `pair('paren', /^\(/, /^\)/)` registration. -/
def openN : Node := Node.mk "paren.open" ['('] []

/-- The `paren.close` node built by the close half of `pair`. -/
def closeN : Node := Node.mk "paren.close" [')'] []

/-- Renderer errors: `visit` throws when `renderers[node.type]` is not a
function, with a message naming the type and the node's `val`. -/
inductive RErr where
  | unregistered (type : String) (val : List Char)

/-- The node types with a registered render function in the verbatim
configuration used throughout: every kind the parser produces gets a
renderer that emits `node.val`, except the `paren` container whose
renderer returns `this.mapVisit(node.nodes)` (children verbatim). -/
def registeredTypes : List String :=
  ["bos", "eos", "text", "paren", "paren.open", "paren.close"]

mutual

/-- Source `Renderer.prototype.visit`: look up `renderers[node.type]`; if it is
not a function, throw the unregistered-renderer error naming the type and
`node.val`; otherwise call it.  The registry here is the verbatim
configuration described at `registeredTypes`. -/
def visit (n : Node) : Except RErr (List Char) :=
  match n with
  | .mk t v ns =>
    if t = "paren" then mapVisit ns
    else if t ∈ registeredTypes then Except.ok v
    else Except.error (RErr.unregistered t v)

/-- Source `Renderer.prototype.mapVisit`: visit each node in order and
concatenate the emitted fragments.  (The `this.rendered += buf` instance
accumulator is not modelled; the produced text is the return value.) -/
def mapVisit (ns : List Node) : Except RErr (List Char) :=
  match ns with
  | [] => Except.ok []
  | n :: rest => do
    let a ← visit n
    let b ← mapVisit rest
    pure (a ++ b)

end

/-- Source `Renderer.prototype.render` on an AST root: `this.mapVisit(this.ast.nodes)`
(source maps disabled).  The AST root is represented by its `nodes` list. -/
def render (ast : List Node) : Except RErr (List Char) :=
  mapVisit ast

/-!
## The Nesting Tracker, generically

`Parser.prototype.push` / `Parser.prototype.pop` operate on both the
flattened `this.stack` and the per-kind `this.sets[type]` array (plus the
`this.count` counter).  JS arrays push/pop at the end; lists here keep the
top at the head.  `JS pop` on an empty array returns `undefined` and
leaves the array empty, while `count` still decrements (it is a plain JS
number, so it can go negative: `Int`).
-/
/-- The tracker state: the flattened stack and the per-kind sets map,
as held by the fixed-table `Parser` (`this.stack`, `this.sets`,
`this.count`). -/
structure Tracker where
  stack : List Node
  sets : String → List Node
  count : Int

/-- Source `Parser.prototype.push`: `this.count++; this.stack.push(token);
return this.sets[type].push(token)`. -/
def Tracker.push (t : Tracker) (type : String) (tok : Node) : Tracker :=
  { stack := tok :: t.stack
    sets := fun k => if k = type then tok :: t.sets k else t.sets k
    count := t.count + 1 }

/-- Source `Parser.prototype.pop`: `this.count--; this.stack.pop();
return this.sets[type].pop()`.  Returns the new tracker and the popped
value of the per-kind stack (`none` models `undefined`). -/
def Tracker.pop (t : Tracker) (type : String) : Tracker × Option Node :=
  ({ stack := t.stack.tail
     sets := fun k => if k = type then (t.sets k).tail else t.sets k
     count := t.count - 1 },
   (t.sets type).head?)

/-- A tracker operation: an open pushes under its kind, a close pops
under its kind. -/
inductive TOp where
  | push (type : String) (tok : Node)
  | pop (type : String)

/-- Apply one operation to a tracker. -/
def applyOp (t : Tracker) : TOp → Tracker
  | .push ty tok => t.push ty tok
  | .pop ty => (t.pop ty).1

/-- Apply a sequence of operations in order. -/
def applyOps (ops : List TOp) (t : Tracker) : Tracker :=
  match ops with
  | [] => t
  | o :: rest => applyOps rest (applyOp t o)

/-- Modelled from the spec: the list of most-recently-opened,
not-yet-closed containers (newest first) after a sequence of tracker
operations — each push records its token as newest, each pop discards the
newest.  Used as the specification side of the lock-step claim C6. -/
def specOpenGo (ops : List TOp) (acc : List Node) : List Node :=
  match ops with
  | [] => acc
  | .push _ tok :: rest => specOpenGo rest (tok :: acc)
  | .pop _ :: rest => specOpenGo rest acc.tail

/-- Modelled from the spec: the open-container list starting from an
empty tracker. -/
def specOpenStack (ops : List TOp) : List Node :=
  specOpenGo ops []

/-- The empty tracker the `Parser` constructor builds. -/
def emptyTracker : Tracker :=
  { stack := [], sets := fun _ => [], count := 0 }

/-!
## The fixed-table engine (`lib/extglob/parser.js`)

The engine is exercised with the representative dialect configuration

  `parser.pair('paren', /^\(/, /^\)/).capture('text', /^[^()]/)`

so the dispatch table `this.types` is
`["paren.open", "paren.close", "text"]` in registration order.

JS mutates one tree through `parent`/`nodes` references: a container node
is appended to its parent's `nodes` when its open token matches, and its
own `nodes` list keeps growing while it sits on the nesting stack.  The
value encoding used here is the standard zipper: each entry of the
nesting stack is the children list accumulated so far for one still-open
container (a `Frame`), innermost first; `astOf` materialises the tree
exactly as the JS mutation leaves it.  `this.stack` and `this.sets.paren`
hold references to the same container node objects in JS; appending a
child through one is visible through the other, so `appendCur` updates
the head frame of both lists in the value encoding.
-/
/-- Children accumulated so far for one still-open container. -/
abbrev Frame : Type := List Node

/-- The fixed-table parser's state: `this.ast.nodes` (the root children,
starting with `bos`), the nesting tracker (`stack`, `sets.paren`,
`count`), the cursor (`input`, `parsed`, `column`) and `this.orig`. -/
structure PState where
  root : List Node
  stack : List Frame
  parens : List Frame
  count : Int
  input : List Char
  parsed : List Char
  column : Nat
  orig : List Char

/-- The state the `Parser` constructor builds: `ast.nodes = [bos]`, empty
stacks, `column = 1`. -/
def initSt : PState :=
  { root := [bosN], stack := [], parens := [], count := 0
    input := [], parsed := [], column := 1, orig := [] }

/-- Source `Parser.prototype.updatePosition` of the fixed-table engine:
`this.column += len; this.parsed += str; this.consume(len)` where
`consume` drops `len` characters from `this.input`.  Call sites always
pass `len = str.length`, so `len` is not a separate argument. -/
def updatePositionE (st : PState) (s : List Char) : PState :=
  { st with column := st.column + s.length
            parsed := st.parsed ++ s
            input := st.input.drop s.length }

/-- Source `prev().nodes.push(node)`: append a node under the nearest open
container (`utils.last(this.stack)`), or under the document root when the
stack is empty.  The head frames of `stack` and `sets.paren` alias the
same container node object in JS, so both are extended. -/
def appendCur (st : PState) (n : Node) : PState :=
  match st.stack with
  | [] => { st with root := st.root ++ [n] }
  | f :: fs =>
    { st with stack := (f ++ [n]) :: fs
              parens := match st.parens with
                        | g :: gs => (g ++ [n]) :: gs
                        | [] => [] }

/-- Parse errors of the fixed-table engine. -/
inductive Err where
  /-- Source `throw new Error('missing opening "' + type + '"')` in the close
  half of `pair` — a raw throw, independent of any option. -/
  | missingOpening (type : String)
  /-- Source `throw new Error('no parsers registered for: "c"')` in `parse`. -/
  | noParser (c : Char)
  /-- Source `throw this.error('missing opening ' + node.type + ...)` in the
  strict end-of-input check, when `silent` is not set (`this.error`
  throws the formatted error naming the unmatched node's type). -/
  | strictUnterminated (type : String)
  /-- With `silent` set, `this.error` pushes the error and returns
  `undefined`, and `throw this.error(...)` then throws `undefined`. -/
  | thrownUndefined

/-- The open half of `pair('paren', /^\(/, /^\)/)`: on a match of `^\(`,
consume it, build the `paren.open` node and the `paren` container
(children `[open]`), push the container on the tracker and append it
under the previous nearest-open container.  In the zipper encoding the
push of the container is the new head frame; its append under the parent
is materialised by `closeH`/`astOf`.  No match leaves the state as-is
(the handler returns `undefined`). -/
def openH (st : PState) : PState :=
  match st.input with
  | c :: _ =>
    if c = '(' then
      let st' := updatePositionE st ['(']
      { st' with stack := [openN] :: st'.stack
                 parens := [openN] :: st'.parens
                 count := st'.count + 1 }
    else st
  | [] => st

/-- The close half of `pair('paren', ...)`: on a match of `^\)`, consume
it, then `var open = this.pop('paren')` pops both tracker stacks; the
guard `this.isType(open, type)` — its arguments swapped relative to
`isType(type, node)` — evaluates in JS to `open === undefined` (a string
has no `.type` property), so the fatal `missing opening` error is thrown
exactly when the per-kind stack was empty.  Otherwise the `paren.close`
node is appended to the popped container and the container becomes a
finished child of its parent. -/
def closeH (st : PState) : Except Err PState :=
  match st.input with
  | c :: _ =>
    if c = ')' then
      let st' := updatePositionE st [')']
      let popped := st'.parens.head?
      let st'' := { st' with stack := st'.stack.tail
                             parens := st'.parens.tail
                             count := st'.count - 1 }
      match popped with
      | none => Except.error (Err.missingOpening "paren")
      | some f => Except.ok (appendCur st'' (Node.mk "paren" [] (f ++ [closeN])))
    else Except.ok st
  | [] => Except.ok st

/-- Source `capture('text', /^[^()]/)`: consume one character that is neither
`(` nor `)` and append a `text` node under the nearest open container. -/
def textH (st : PState) : PState :=
  match st.input with
  | c :: _ =>
    if c = '(' ∨ c = ')' then st
    else appendCur (updatePositionE st [c]) (Node.mk "text" [c] [])
  | [] => st

/-- The registered handler table entries, in registration order
(`pair` registers `type + '.open'` then `type + '.close'`, then
`capture` registers `text`). -/
inductive H where
  | popen
  | pclose
  | text

/-- Run one registered handler (`this.parsers[this.types[idx]].call(this)`). -/
def runH : H → PState → Except Err PState
  | H.popen, st => Except.ok (openH st)
  | H.pclose, st => closeH st
  | H.text, st => Except.ok (textH st)

/-- The dispatch table for the representative configuration. -/
def hs0 : List H := [H.popen, H.pclose, H.text]

/-- Source `Parser.prototype.next`: run every registered handler in table order
(the JS loop does not stop at the first match). -/
def next (hs : List H) (st : PState) : Except Err PState :=
  match hs with
  | [] => Except.ok st
  | h :: rest => do
    let st' ← runH h st
    next rest st'

/-- The body of `Parser.prototype.parse`'s `while (this.input)` loop,
with an explicit fuel so the definition is structural: each iteration
stores `prev = this.input`, runs `next`, and throws the fatal
`no parsers registered` error naming the leading character when input
remains unchanged and non-empty.  `loopF_eq_loop` below proves fuel
`input.length + 1` always suffices, so `loop` is the source loop. -/
def loopF (hs : List H) : Nat → PState → Except Err PState
  | 0, st => Except.ok st
  | fuel + 1, st =>
    if st.input = [] then Except.ok st
    else
      match next hs st with
      | Except.error e => Except.error e
      | Except.ok st' =>
        if st'.input ≠ [] ∧ st'.input = st.input then
          Except.error (Err.noParser (st'.input.headD ' '))
        else loopF hs fuel st'

/-- The `while (this.input)` loop of `Parser.prototype.parse`. -/
def loop (hs : List H) (st : PState) : Except Err PState :=
  loopF hs (st.input.length + 1) st

/-- Source `Parser.prototype.eos`: input is exhausted, so append the `eos`
sentinel under `this.prev()` — the nearest open container, or the root. -/
def eos (st : PState) : PState :=
  appendCur st eosN

/-- Source `Parser.prototype.parse` of the fixed-table engine: set `this.orig`
and `this.input` to the given input (replacing them), run the loop, then
`if (this.stack.length && this.options.strict)` throw the unterminated
error (through `this.error`, whose behaviour depends on `silent`),
otherwise append the `eos` sentinel.  Returns the full parser state; the
tree is read off by `astOf`. -/
def parseSt (hs : List H) (strict silent : Bool) (st0 : PState) (s : List Char) :
    Except Err PState := do
  let st ← loop hs { st0 with orig := s, input := s }
  match st.stack, strict with
  | _ :: _, true =>
    Except.error (if silent then Err.thrownUndefined else Err.strictUnterminated "paren")
  | _, _ => Except.ok (eos st)

/-- Materialise the children lists of still-open containers into the tree
the JS mutation built: each open container is the last child of its
parent, with exactly the children accumulated in its frame. -/
def collapseF (fs : List Frame) (c : List Node) (root : List Node) : List Node :=
  match fs with
  | [] => root ++ [Node.mk "paren" [] c]
  | f :: rest => collapseF rest (f ++ [Node.mk "paren" [] c]) root

/-- The `this.ast.nodes` view of a parser state. -/
def astOf (st : PState) : List Node :=
  match st.stack with
  | [] => st.root
  | f :: fs => collapseF fs f st.root

/-- Source `parse` for the representative configuration, default options except
the two booleans, from a fresh parser: returns the AST root children. -/
def parse (strict silent : Bool) (s : List Char) : Except Err (List Node) :=
  (parseSt hs0 strict silent initSt s).map astOf

/-!
## The middleware-mode engine (`snapdragon/lib/parser.js`)

This `Parser` keeps `original`, `input`, `parsed`, `lineno`, `column`,
the `nodes` list, and an `fns` list of middleware run in order by
`Parser.prototype.run`.  A middleware receives `this.input` and either
returns a node — having consumed some matched text through
`this.match`/`this.advance` — or nothing.  A middleware is therefore a
function from the input to an optional node together with the text it
matched; the engine applies the consumption (`advance`).  The `while`
loop of `parse` can run forever when a middleware keeps returning nodes
without consuming, so it takes explicit fuel; `none` marks exhaustion.
-/
/-- Source `lastIndexOf` of a character in a list, as `String.prototype.lastIndexOf`
(`some i` is the index of the last occurrence). -/
def lastIndexOf (c : Char) : List Char → Option Nat
  | [] => none
  | a :: rest =>
    match lastIndexOf c rest with
    | some i => some (i + 1)
    | none => if a = c then some 0 else none

/-- A line/column pair (`this.lineno`, `this.column`). -/
structure SPos where
  lineno : Nat
  column : Nat

/-- Source `Parser.prototype.updatePosition` of the middleware-mode engine:
`var lines = str.match(/\n/g); if (lines) this.lineno += lines.length;
var i = str.lastIndexOf('\n');
this.column = ~i ? len - i : this.column + len;`
with `len = str.length` at the call site (`advance`). -/
def supdatePosition (p : SPos) (s : List Char) (len : Nat) : SPos :=
  { lineno := p.lineno + s.count '\n'
    column := match lastIndexOf '\n' s with
              | some i => len - i
              | none => p.column + len }

/-- Modelled from the spec: "column counting resets to 1 at each newline,
line count increments by the number of newlines consumed" — the reference
column computation that starts a fresh line at column 1 after each
newline character and advances by one column per other character. -/
def columnSpec (col : Nat) (s : List Char) : Nat :=
  match s with
  | [] => col
  | c :: rest => columnSpec (if c = '\n' then 1 else col + 1) rest

/-- The middleware-mode parser state. -/
structure SState where
  original : List Char
  input : List Char
  parsed : List Char
  lineno : Nat
  column : Nat
  nodes : List Node

/-- The state the middleware-mode `Parser` constructor builds. -/
def sInit : SState :=
  { original := [], input := [], parsed := [], lineno := 1, column := 1, nodes := [] }

/-- Source `Parser.prototype.advance`: `this.parsed += str;
this.updatePosition(str, len); this.input = this.input.slice(len)`. -/
def sadvance (st : SState) (s : List Char) : SState :=
  let p := supdatePosition ⟨st.lineno, st.column⟩ s s.length
  { st with parsed := st.parsed ++ s
            lineno := p.lineno
            column := p.column
            input := st.input.drop s.length }

/-- A middleware: given `this.input`, optionally a node and the text the
middleware matched (which the engine consumes via `advance`). -/
abbrev MW : Type := List Char → Option (Node × List Char)

/-- Source `Parser.prototype.run`: try each middleware in order on the current
input; the first one returning a node wins and its match is consumed;
`null` when none does. -/
def srun (fns : List MW) (st : SState) : Option (Node × SState) :=
  match fns with
  | [] => none
  | f :: rest =>
    match f st.input with
    | some (n, s) => some (n, sadvance st s)
    | none => srun rest st

/-- The `while (this.input.length && (node = this.run()))` loop of the
middleware-mode `parse`, with fuel (`none` = the JS loop has not
terminated within `fuel` iterations).  Note the loop exits *silently*,
with no error, when `run` returns `null` while input remains. -/
def sloop (fns : List MW) : Nat → SState → Option SState
  | 0, _ => none
  | fuel + 1, st =>
    if st.input = [] then some st
    else
      match srun fns st with
      | none => some st
      | some (n, st') => sloop fns fuel { st' with nodes := st'.nodes ++ [n] }

/-- Middleware-engine errors. -/
inductive SErr where
  /-- Source `throw new TypeError('expected a string')`. -/
  | typeError

/-- A JS argument value, as far as `typeof input !== 'string'` cares. -/
inductive JSVal where
  | str (s : List Char)
  | num (n : Int)
  | boolean (b : Bool)
  | undef

/-- Source `typeof input === 'string'`. -/
def JSVal.isString : JSVal → Bool
  | .str _ => true
  | _ => false

/-- Source `Parser.prototype.parse` of the middleware-mode engine: reject
non-strings with a `TypeError` before touching any state, otherwise
append to `this.original` and `this.input` and run the loop.  The result
pairs the engine state as left behind with the raised error, if any
(`none` outer value = the loop never terminated). -/
def sparse (fns : List MW) (fuel : Nat) (st : SState) (v : JSVal) :
    Option (SState × Option SErr) :=
  match v with
  | .str s =>
    (sloop fns fuel { st with original := st.original ++ s, input := st.input ++ s }).map
      (fun st' => (st', none))
  | _ => some (st, some SErr.typeError)

/-!
## Render invariant and the balance bookkeeping for the round trip
-/
/-- Text produced by rendering the still-open frames, outermost first
(the order their nodes occur in the document). -/
def framesRenderE : List Frame → Except RErr (List Char)
  | [] => Except.ok []
  | f :: fs => do
    let outer ← framesRenderE fs
    let inner ← mapVisit f
    pure (outer ++ inner)

/-- The parse/render correspondence maintained by every handler: the
rendered root children followed by the rendered open frames spell exactly
the text consumed so far. -/
def renderInv (st : PState) : Prop :=
  ∃ a b, mapVisit st.root = Except.ok a ∧ framesRenderE st.stack = Except.ok b ∧
    st.parsed = a ++ b

/-- Source `OkD d r`: reading `r` with `d` currently-open parens never meets a
close with no open paren (the Dyck prefix condition). -/
def OkD (d : Nat) : List Char → Prop
  | [] => True
  | c :: r => if c = '(' then OkD (d + 1) r
              else if c = ')' then 0 < d ∧ OkD (d - 1) r
              else OkD d r

/-- Open-paren depth after reading `r` starting from depth `d`. -/
def depthAfter (d : Nat) : List Char → Nat
  | [] => d
  | c :: r => if c = '(' then depthAfter (d + 1) r
              else if c = ')' then depthAfter (d - 1) r
              else depthAfter d r

/-- Inputs composed only of well-balanced registered pair constructs
(with arbitrary non-paren text in and around them): the empty string, a
non-paren character followed by such an input, or a balanced paren group
followed by such an input. -/
inductive Bal : List Char → Prop where
  | nil : Bal []
  | chr {c : Char} {s : List Char} : c ≠ '(' → c ≠ ')' → Bal s → Bal (c :: s)
  | par {s t : List Char} : Bal s → Bal t → Bal ('(' :: s ++ ')' :: t)

/-!
## Render totality on fully registered trees
-/
mutual

/-- Every node kind in the tree has a registered render function. -/
def allReg : Node → Bool
  | .mk t _ ns => decide (t ∈ registeredTypes) && allRegL ns

/-- Source `allReg` on every node of a list. -/
def allRegL : List Node → Bool
  | [] => true
  | n :: rest => allReg n && allRegL rest

end

/-- A middleware that keeps returning a node while consuming nothing, as
a caller could register with `use`. -/
def mwStall : MW := fun _ => some (Node.mk "x" [] [], [])

theorem applyOps_stack_eq_specOpenGo (ops : List TOp) (t : Tracker) :
    (applyOps ops t).stack = specOpenGo ops t.stack := by
  induction ops generalizing t with
  | nil => rfl
  | cons o rest ih =>
    cases o with
    | push ty tok => simpa [applyOps, applyOp, Tracker.push, specOpenGo] using ih _
    | pop ty => simpa [applyOps, applyOp, Tracker.pop, specOpenGo] using ih _

/-!
## Loop infrastructure: handler characterisations, handlers only consume,
and the fuel of `loopF` suffices
-/
theorem ebind_ok {ε α β : Type} (a : α) (f : α → Except ε β) :
    (Except.ok a >>= f) = f a := rfl

theorem ebind_err {ε α β : Type} (e : ε) (f : α → Except ε β) :
    ((Except.error e : Except ε α) >>= f) = Except.error e := rfl

theorem appendCur_input (st : PState) (n : Node) : (appendCur st n).input = st.input := by
  unfold appendCur
  cases st.stack <;> rfl

theorem openH_nil (st : PState) (hi : st.input = []) : openH st = st := by
  unfold openH; rw [hi]

theorem openH_other (st : PState) (c : Char) (r : List Char)
    (hi : st.input = c :: r) (hc : c ≠ '(') : openH st = st := by
  unfold openH; rw [hi]; simp [hc]

theorem openH_open (st : PState) (r : List Char) (hi : st.input = '(' :: r) :
    openH st = { st with input := r
                         parsed := st.parsed ++ ['(']
                         column := st.column + 1
                         stack := [openN] :: st.stack
                         parens := [openN] :: st.parens
                         count := st.count + 1 } := by
  unfold openH; rw [hi]
  simp [updatePositionE, hi]

theorem closeH_nil (st : PState) (hi : st.input = []) : closeH st = Except.ok st := by
  unfold closeH; rw [hi]

theorem closeH_other (st : PState) (c : Char) (r : List Char)
    (hi : st.input = c :: r) (hc : c ≠ ')') : closeH st = Except.ok st := by
  unfold closeH; rw [hi]; simp [hc]

theorem closeH_empty (st : PState) (r : List Char)
    (hi : st.input = ')' :: r) (hp : st.parens = []) :
    closeH st = Except.error (Err.missingOpening "paren") := by
  unfold closeH; rw [hi]
  simp [updatePositionE, hp]

theorem closeH_pop (st : PState) (r : List Char) (f : Frame) (gs : List Frame)
    (hi : st.input = ')' :: r) (hp : st.parens = f :: gs) :
    closeH st =
      Except.ok (appendCur
        { st with input := r
                  parsed := st.parsed ++ [')']
                  column := st.column + 1
                  stack := st.stack.tail
                  parens := gs
                  count := st.count - 1 }
        (Node.mk "paren" [] (f ++ [closeN]))) := by
  unfold closeH; rw [hi]
  simp [updatePositionE, hi, hp]

theorem textH_nil (st : PState) (hi : st.input = []) : textH st = st := by
  unfold textH; rw [hi]

theorem textH_other (st : PState) (c : Char) (r : List Char)
    (hi : st.input = c :: r) (hc : c = '(' ∨ c = ')') : textH st = st := by
  unfold textH; rw [hi]; simp [hc]

theorem textH_take (st : PState) (c : Char) (r : List Char)
    (hi : st.input = c :: r) (hc : ¬(c = '(' ∨ c = ')')) :
    textH st = appendCur { st with input := r
                                   parsed := st.parsed ++ [c]
                                   column := st.column + 1 }
                 (Node.mk "text" [c] []) := by
  unfold textH; rw [hi]
  simp [updatePositionE, hi, hc]

theorem runH_suffix (h : H) (st st' : PState) (hr : runH h st = Except.ok st') :
    st'.input <:+ st.input := by
  cases h with
  | popen =>
    simp only [runH, Except.ok.injEq] at hr
    subst hr
    cases hi : st.input with
    | nil => rw [openH_nil st hi, hi]
    | cons c r =>
      by_cases hc : c = '('
      · subst hc
        rw [openH_open st r hi]
        exact List.suffix_cons '(' r
      · rw [openH_other st c r hi hc, hi]
  | pclose =>
    cases hi : st.input with
    | nil =>
      rw [show runH H.pclose st = closeH st from rfl, closeH_nil st hi] at hr
      cases hr; rw [hi]
    | cons c r =>
      by_cases hc : c = ')'
      · subst hc
        cases hp : st.parens with
        | nil =>
          rw [show runH H.pclose st = closeH st from rfl, closeH_empty st r hi hp] at hr
          cases hr
        | cons f gs =>
          rw [show runH H.pclose st = closeH st from rfl, closeH_pop st r f gs hi hp] at hr
          cases hr
          rw [appendCur_input]
          exact List.suffix_cons ')' r
      · rw [show runH H.pclose st = closeH st from rfl, closeH_other st c r hi hc] at hr
        cases hr
        rw [hi]
  | text =>
    simp only [runH, Except.ok.injEq] at hr
    subst hr
    cases hi : st.input with
    | nil => rw [textH_nil st hi, hi]
    | cons c r =>
      by_cases hc : c = '(' ∨ c = ')'
      · rw [textH_other st c r hi hc, hi]
      · rw [textH_take st c r hi hc, appendCur_input]
        exact List.suffix_cons c r

theorem next_suffix (hs : List H) (st st' : PState) (hn : next hs st = Except.ok st') :
    st'.input <:+ st.input := by
  induction hs generalizing st with
  | nil => simp only [next, Except.ok.injEq] at hn; subst hn; exact List.suffix_refl _
  | cons h rest ih =>
    simp only [next] at hn
    cases hr : runH h st with
    | error e => rw [hr, ebind_err] at hn; cases hn
    | ok st1 =>
      rw [hr, ebind_ok] at hn
      exact (ih st1 hn).trans (runH_suffix h st st1 hr)

theorem next_progress (hs : List H) (st st' : PState)
    (hn : next hs st = Except.ok st') (hne : st'.input ≠ st.input) :
    st'.input.length < st.input.length := by
  have hsu : st'.input <:+ st.input := next_suffix hs st st' hn
  rcases Nat.lt_or_ge st'.input.length st.input.length with h | h
  · exact h
  · exact absurd (hsu.eq_of_length (Nat.le_antisymm hsu.length_le h)) hne

theorem loopF_succ (hs : List H) (m : Nat) (st : PState) :
    loopF hs (m + 1) st =
      if st.input = [] then Except.ok st
      else
        match next hs st with
        | Except.error e => Except.error e
        | Except.ok st' =>
          if st'.input ≠ [] ∧ st'.input = st.input then
            Except.error (Err.noParser (st'.input.headD ' '))
          else loopF hs m st' := rfl

/-- Fuel sufficiency: any fuel above the remaining input length computes
the same result, so `loop` is the source `while` loop. -/
theorem loopF_eq_loop (hs : List H) (fuel : Nat) (st : PState)
    (hf : st.input.length < fuel) : loopF hs fuel st = loop hs st := by
  induction fuel using Nat.strong_induction_on generalizing st with
  | _ fuel ih =>
    match fuel, hf with
    | fuel + 1, hf =>
      show loopF hs (fuel + 1) st = loopF hs (st.input.length + 1) st
      by_cases hi : st.input = []
      · rw [loopF_succ, loopF_succ, if_pos hi, if_pos hi]
      · rw [loopF_succ, loopF_succ, if_neg hi, if_neg hi]
        cases hn : next hs st with
        | error e => rfl
        | ok st' =>
          dsimp only
          by_cases hp : st'.input ≠ [] ∧ st'.input = st.input
          · rw [if_pos hp, if_pos hp]
          · rw [if_neg hp, if_neg hp]
            have hlt : st'.input.length < st.input.length := by
              by_cases hne : st'.input = st.input
              · exact absurd ⟨fun he => hi (he ▸ hne.symm), hne⟩ hp
              · exact next_progress hs st st' hn hne
            have h1 : loopF hs fuel st' = loop hs st' :=
              ih fuel (Nat.lt_succ_self _) st' (by omega)
            have h2 : loopF hs st.input.length st' = loop hs st' := by
              cases hm : st.input.length with
              | zero => exact absurd (List.length_eq_zero.mp hm) hi
              | succ m => exact ih (m + 1) (by omega) st' (by omega)
            rw [h1, h2]

/-- One unfolding of the source `while` loop. -/
theorem loop_unfold (hs : List H) (st : PState) (hi : st.input ≠ []) :
    loop hs st =
      match next hs st with
      | Except.error e => Except.error e
      | Except.ok st' =>
        if st'.input ≠ [] ∧ st'.input = st.input then
          Except.error (Err.noParser (st'.input.headD ' '))
        else loop hs st' := by
  show loopF hs (st.input.length + 1) st = _
  rw [loopF_succ, if_neg hi]
  cases hn : next hs st with
  | error e => rfl
  | ok st' =>
    dsimp only
    by_cases hp : st'.input ≠ [] ∧ st'.input = st.input
    · rw [if_pos hp, if_pos hp]
    · rw [if_neg hp, if_neg hp]
      have hlt : st'.input.length < st.input.length := by
        by_cases hne : st'.input = st.input
        · exact absurd ⟨fun he => hi (he ▸ hne.symm), hne⟩ hp
        · exact next_progress hs st st' hn hne
      exact loopF_eq_loop hs st.input.length st' hlt

theorem OkD_nil (d : Nat) : OkD d [] := trivial

theorem OkD_open_iff {d : Nat} {r : List Char} : OkD d ('(' :: r) ↔ OkD (d + 1) r := by
  simp [OkD]

theorem OkD_close_iff {d : Nat} {r : List Char} :
    OkD d (')' :: r) ↔ 0 < d ∧ OkD (d - 1) r := by
  simp [OkD]

theorem OkD_text_iff {d : Nat} {c : Char} {r : List Char} (h1 : c ≠ '(') (h2 : c ≠ ')') :
    OkD d (c :: r) ↔ OkD d r := by
  simp [OkD, h1, h2]

theorem depthAfter_open (d : Nat) (r : List Char) :
    depthAfter d ('(' :: r) = depthAfter (d + 1) r := by simp [depthAfter]

theorem depthAfter_close (d : Nat) (r : List Char) :
    depthAfter d (')' :: r) = depthAfter (d - 1) r := by simp [depthAfter]

theorem depthAfter_text {c : Char} (d : Nat) (r : List Char) (h1 : c ≠ '(') (h2 : c ≠ ')') :
    depthAfter d (c :: r) = depthAfter d r := by simp [depthAfter, h1, h2]

/-- A balanced block neither disturbs the Dyck prefix condition of what
follows it nor changes the final depth. -/
theorem Bal_transfer {s : List Char} (hb : Bal s) :
    ∀ d r, (OkD d r → OkD d (s ++ r)) ∧ depthAfter d (s ++ r) = depthAfter d r := by
  induction hb with
  | nil => intro d r; exact ⟨fun h => h, rfl⟩
  | chr h1 h2 _ ih =>
    intro d r
    refine ⟨fun h => ?_, ?_⟩
    · rw [List.cons_append]
      exact (OkD_text_iff h1 h2).mpr ((ih d r).1 h)
    · rw [List.cons_append, depthAfter_text d _ h1 h2]
      exact (ih d r).2
  | par _ _ ihs iht =>
    rename_i s' t' _ _
    intro d r
    have hassoc : (('(' :: s') ++ ')' :: t') ++ r = '(' :: (s' ++ ')' :: (t' ++ r)) := by
      simp
    have hassoc2 : (')' :: t') ++ r = ')' :: (t' ++ r) := rfl
    refine ⟨fun h => ?_, ?_⟩
    · rw [hassoc]
      refine OkD_open_iff.mpr ?_
      refine (ihs (d + 1) (')' :: (t' ++ r))).1 ?_
      refine OkD_close_iff.mpr ⟨Nat.succ_pos d, ?_⟩
      simpa using (iht d r).1 h
    · rw [hassoc, depthAfter_open]
      have h1 := (ihs (d + 1) (')' :: (t' ++ r))).2
      rw [show s' ++ ')' :: (t' ++ r) = s' ++ (')' :: (t' ++ r)) from rfl, h1,
        depthAfter_close]
      simpa using (iht d r).2

theorem mapVisit_nil : mapVisit [] = Except.ok [] := rfl

theorem mapVisit_cons (n : Node) (rest : List Node) :
    mapVisit (n :: rest) =
      (visit n >>= fun a => mapVisit rest >>= fun b => pure (a ++ b)) := by
  rw [mapVisit]

theorem visit_bos : visit bosN = Except.ok [] := rfl

theorem visit_eos : visit eosN = Except.ok [] := rfl

theorem visit_openN : visit openN = Except.ok ['('] := rfl

theorem visit_closeN : visit closeN = Except.ok [')'] := rfl

theorem visit_text (c : Char) : visit (Node.mk "text" [c] []) = Except.ok [c] := rfl

theorem visit_paren (ns : List Node) :
    visit (Node.mk "paren" [] ns) = mapVisit ns := by
  rw [visit]
  simp

theorem mapVisit_single {n : Node} {v : List Char} (hv : visit n = Except.ok v) :
    mapVisit [n] = Except.ok v := by
  rw [mapVisit_cons, hv, ebind_ok, mapVisit_nil, ebind_ok]
  simp [pure, Except.pure]

theorem mapVisit_ok_append {xs ys : List Node} {a b : List Char}
    (hx : mapVisit xs = Except.ok a) (hy : mapVisit ys = Except.ok b) :
    mapVisit (xs ++ ys) = Except.ok (a ++ b) := by
  induction xs generalizing a with
  | nil =>
    rw [mapVisit_nil] at hx
    cases hx
    simpa using hy
  | cons n rest ih =>
    rw [mapVisit_cons] at hx
    cases hv : visit n with
    | error e => rw [hv, ebind_err] at hx; cases hx
    | ok va =>
      rw [hv, ebind_ok] at hx
      cases hr : mapVisit rest with
      | error e => rw [hr, ebind_err] at hx; cases hx
      | ok vr =>
        rw [hr, ebind_ok] at hx
        cases hx
        rw [List.cons_append, mapVisit_cons, hv, ebind_ok, ih hr, ebind_ok]
        simp [pure, Except.pure]

theorem framesRenderE_nil : framesRenderE [] = Except.ok [] := rfl

theorem framesRenderE_cons (f : Frame) (fs : List Frame) :
    framesRenderE (f :: fs) =
      (framesRenderE fs >>= fun outer => mapVisit f >>= fun inner =>
        pure (outer ++ inner)) := by
  rw [framesRenderE]

theorem framesRenderE_cons_inv {f : Frame} {fs : List Frame} {b : List Char}
    (h : framesRenderE (f :: fs) = Except.ok b) :
    ∃ bo bi, framesRenderE fs = Except.ok bo ∧ mapVisit f = Except.ok bi ∧
      b = bo ++ bi := by
  rw [framesRenderE_cons] at h
  cases ho : framesRenderE fs with
  | error e => rw [ho, ebind_err] at h; cases h
  | ok bo =>
    rw [ho, ebind_ok] at h
    cases hi : mapVisit f with
    | error e => rw [hi, ebind_err] at h; cases h
    | ok bi =>
      rw [hi, ebind_ok] at h
      cases h
      exact ⟨bo, bi, rfl, rfl, rfl⟩

theorem framesRenderE_cons_ok {f : Frame} {fs : List Frame} {bo bi : List Char}
    (ho : framesRenderE fs = Except.ok bo) (hi : mapVisit f = Except.ok bi) :
    framesRenderE (f :: fs) = Except.ok (bo ++ bi) := by
  rw [framesRenderE_cons, ho, ebind_ok, hi, ebind_ok]
  simp [pure, Except.pure]

theorem appendCur_lockstep {st : PState} (n : Node) (h : st.stack = st.parens) :
    (appendCur st n).stack = (appendCur st n).parens := by
  unfold appendCur
  cases hs : st.stack with
  | nil => simpa [hs] using h.symm
  | cons f fs => rw [← h, hs]

theorem appendCur_stack_length {st : PState} (n : Node) :
    (appendCur st n).stack.length = st.stack.length := by
  unfold appendCur
  cases st.stack <;> simp

/-- Appending a renderable node under the nearest open container
preserves the parse/render correspondence, provided the consumed text
already accounts for the node's rendering. -/
theorem renderInv_appendCur {st : PState} {n : Node} {v : List Char}
    (hv : visit n = Except.ok v)
    (h : ∃ a b, mapVisit st.root = Except.ok a ∧ framesRenderE st.stack = Except.ok b ∧
      st.parsed = (a ++ b) ++ v) :
    renderInv (appendCur st n) := by
  obtain ⟨a, b, ha, hb, hp⟩ := h
  unfold appendCur
  cases hs : st.stack with
  | nil =>
    rw [hs, framesRenderE_nil] at hb
    cases hb
    refine ⟨a ++ v, [], ?_, framesRenderE_nil, by simpa using hp⟩
    exact mapVisit_ok_append ha (mapVisit_single hv)
  | cons f fs =>
    rw [hs] at hb
    obtain ⟨bo, bi, hbo, hbi, hbb⟩ := framesRenderE_cons_inv hb
    refine ⟨a, bo ++ (bi ++ v), ha, ?_, ?_⟩
    · exact framesRenderE_cons_ok hbo (mapVisit_ok_append hbi (mapVisit_single hv))
    · rw [hp, hbb]
      simp

theorem appendCur_parsed (st : PState) (n : Node) : (appendCur st n).parsed = st.parsed := by
  unfold appendCur
  cases st.stack <;> rfl

theorem appendCur_orig (st : PState) (n : Node) : (appendCur st n).orig = st.orig := by
  unfold appendCur
  cases st.stack <;> rfl

/-- One successful open step, with all the facts the pass lemma needs. -/
theorem stepOpen {st : PState} {r : List Char} (hi : st.input = '(' :: r)
    (hsp : st.stack = st.parens) (hinv : renderInv st) :
    (openH st).input = r ∧ (openH st).stack = (openH st).parens ∧
      (openH st).parens = [openN] :: st.parens ∧
      (openH st).stack.length = st.stack.length + 1 ∧
      renderInv (openH st) ∧ (openH st).parsed = st.parsed ++ ['('] ∧
      (openH st).orig = st.orig := by
  rw [openH_open st r hi]
  obtain ⟨a, b, ha, hb, hp⟩ := hinv
  refine ⟨rfl, by rw [hsp], rfl, by simp, ?_, rfl, rfl⟩
  refine ⟨a, b ++ ['('], ha, ?_, by rw [hp]; simp⟩
  exact framesRenderE_cons_ok hb (mapVisit_single visit_openN)

/-- One successful close step. -/
theorem stepClose {st : PState} {r : List Char} {f : Frame} {gs : List Frame}
    (hi : st.input = ')' :: r) (hsp : st.stack = st.parens) (hp : st.parens = f :: gs)
    (hinv : renderInv st) :
    ∃ stB, closeH st = Except.ok stB ∧ stB.input = r ∧ stB.stack = stB.parens ∧
      stB.stack.length + 1 = st.stack.length ∧
      renderInv stB ∧ stB.parsed = st.parsed ++ [')'] ∧ stB.orig = st.orig := by
  rw [closeH_pop st r f gs hi hp]
  obtain ⟨a, b, ha, hb, hpr⟩ := hinv
  have hstk : st.stack = f :: gs := hsp.trans hp
  rw [hstk] at hb
  obtain ⟨bo, bi, hbo, hbi, hbb⟩ := framesRenderE_cons_inv hb
  have hvp : visit (Node.mk "paren" [] (f ++ [closeN])) = Except.ok (bi ++ [')']) := by
    rw [visit_paren]
    exact mapVisit_ok_append hbi (mapVisit_single visit_closeN)
  refine ⟨_, rfl, ?_, ?_, ?_, ?_, ?_, ?_⟩
  · rw [appendCur_input]
  · refine appendCur_lockstep _ ?_
    show st.stack.tail = gs
    rw [hstk, List.tail_cons]
  · rw [appendCur_stack_length]
    show st.stack.tail.length + 1 = st.stack.length
    rw [hstk]
    simp
  · refine renderInv_appendCur hvp ?_
    refine ⟨a, bo, ha, ?_, ?_⟩
    · show framesRenderE st.stack.tail = Except.ok bo
      rw [hstk]
      exact hbo
    · show st.parsed ++ [')'] = a ++ bo ++ (bi ++ [')'])
      rw [hpr, hbb]
      simp
  · rw [appendCur_parsed]
  · rw [appendCur_orig]

/-- One successful text step. -/
theorem stepText {st : PState} {c : Char} {r : List Char} (hi : st.input = c :: r)
    (hc : ¬(c = '(' ∨ c = ')')) (hsp : st.stack = st.parens) (hinv : renderInv st) :
    (textH st).input = r ∧ (textH st).stack = (textH st).parens ∧
      (textH st).stack.length = st.stack.length ∧
      renderInv (textH st) ∧ (textH st).parsed = st.parsed ++ [c] ∧
      (textH st).orig = st.orig := by
  rw [textH_take st c r hi hc]
  obtain ⟨a, b, ha, hb, hp⟩ := hinv
  refine ⟨?_, ?_, ?_, ?_, ?_, ?_⟩
  · rw [appendCur_input]
  · exact appendCur_lockstep _ hsp
  · rw [appendCur_stack_length]
  · refine renderInv_appendCur (visit_text c) ?_
    exact ⟨a, b, ha, hb, by rw [hp]⟩
  · rw [appendCur_parsed]
  · rw [appendCur_orig]

theorem next_hs0 (st : PState) :
    next hs0 st = (closeH (openH st) >>= fun s2 => Except.ok (textH s2)) := rfl

/-- The optional trailing text step of a pass: whatever the current
input, running `textH` preserves the invariants and consumes the text
fragment it appends. -/
theorem textOpt {st : PState} (hsp : st.stack = st.parens) (hinv : renderInv st) :
    (textH st).stack = (textH st).parens ∧ renderInv (textH st) ∧
      (textH st).stack.length = st.stack.length ∧ (textH st).orig = st.orig ∧
      (OkD st.stack.length st.input → OkD (textH st).stack.length (textH st).input) ∧
      depthAfter (textH st).stack.length (textH st).input
        = depthAfter st.stack.length st.input ∧
      ∃ toks, st.input = toks ++ (textH st).input ∧
        (textH st).parsed = st.parsed ++ toks := by
  cases hi : st.input with
  | nil =>
    rw [textH_nil st hi]
    exact ⟨hsp, hinv, rfl, rfl, fun h => by rw [hi]; exact h, by rw [hi], [],
      by simp [hi], by simp⟩
  | cons c r =>
    by_cases hc : c = '(' ∨ c = ')'
    · rw [textH_other st c r hi hc]
      exact ⟨hsp, hinv, rfl, rfl, fun h => by rw [hi]; exact h, by rw [hi], [],
        by simp [hi], by simp⟩
    · obtain ⟨h1, h2, h3, h4, h5, h6⟩ := stepText hi hc hsp hinv
      push_neg at hc
      refine ⟨h2, h4, h3, h6, ?_, ?_, [c], ?_, h5⟩
      · intro h
        rw [h3, h1]
        exact (OkD_text_iff hc.1 hc.2).mp h
      · rw [h3, h1, depthAfter_text _ _ hc.1 hc.2]
      · rw [h1]
        rfl

/-- One full pass of `next` under the Dyck prefix condition: it succeeds,
preserves the invariants, and consumes a non-empty token string. -/
theorem pass_next {st : PState} {c : Char} {r : List Char} (hi : st.input = c :: r)
    (hsp : st.stack = st.parens) (hinv : renderInv st)
    (hok : OkD st.stack.length st.input) :
    ∃ stN, next hs0 st = Except.ok stN ∧
      stN.stack = stN.parens ∧ renderInv stN ∧ stN.orig = st.orig ∧
      OkD stN.stack.length stN.input ∧
      depthAfter stN.stack.length stN.input = depthAfter st.stack.length st.input ∧
      ∃ toks, toks ≠ [] ∧ st.input = toks ++ stN.input ∧
        stN.parsed = st.parsed ++ toks := by
  by_cases hc1 : c = '('
  · subst hc1
    obtain ⟨hA1, hA2, hA3, hA4, hA5, hA6, hA7⟩ := stepOpen hi hsp hinv
    rw [hi] at hok
    have hokA : OkD ((openH st).stack.length) r := by
      rw [hA4]
      exact OkD_open_iff.mp hok
    by_cases hr : ∃ r2, r = ')' :: r2
    · obtain ⟨r2, rfl⟩ := hr
      obtain ⟨stB, hC, hB1, hB2, hB3, hB4, hB5, hB6⟩ := stepClose hA1 hA2 hA3 hA5
      obtain ⟨hT1, hT2, hT3, hT4, hT5, hT6, toks2, hT7, hT8⟩ := textOpt hB2 hB4
      have hlenB : stB.stack.length = st.stack.length := by
        rw [hA4] at hB3
        omega
      have hokB : OkD stB.stack.length stB.input := by
        rw [hB1, hlenB]
        have h1 := OkD_close_iff.mp (OkD_open_iff.mp hok)
        simpa using h1.2
      refine ⟨textH stB, by rw [next_hs0, hC, ebind_ok], hT1, hT2,
        hT4.trans (hB6.trans hA7), hT5 hokB, ?_, '(' :: ')' :: toks2, by simp, ?_, ?_⟩
      · rw [hT6, hB1, hlenB, hi, depthAfter_open, depthAfter_close]
        simp
      · rw [hi]
        rw [hB1] at hT7
        rw [hT7]
        rfl
      · rw [hT8, hB5, hA6]
        simp
    · have hC : closeH (openH st) = Except.ok (openH st) := by
        cases hr2 : r with
        | nil => exact closeH_nil _ (by rw [hA1, hr2])
        | cons c2 r2 =>
          refine closeH_other _ c2 r2 (by rw [hA1, hr2]) ?_
          intro hcc
          exact hr ⟨r2, by rw [hr2, hcc]⟩
      obtain ⟨hT1, hT2, hT3, hT4, hT5, hT6, toks2, hT7, hT8⟩ := textOpt hA2 hA5
      refine ⟨textH (openH st), by rw [next_hs0, hC, ebind_ok], hT1, hT2,
        hT4.trans hA7, hT5 (by rw [hA1]; exact hokA), ?_, '(' :: toks2, by simp, ?_, ?_⟩
      · rw [hT6, hA1, hA4, hi, depthAfter_open]
      · rw [hi]
        rw [hA1] at hT7
        rw [hT7]
        rfl
      · rw [hT8, hA6]
        simp
  · by_cases hc2 : c = ')'
    · subst hc2
      rw [hi] at hok
      obtain ⟨hd, hokr⟩ := OkD_close_iff.mp hok
      have hO : openH st = st := openH_other st ')' r hi (by decide)
      cases hstk : st.stack with
      | nil => rw [hstk] at hd; simp at hd
      | cons f fs =>
        have hpfs : st.parens = f :: fs := hsp.symm.trans hstk
        obtain ⟨stB, hC, hB1, hB2, hB3, hB4, hB5, hB6⟩ := stepClose hi hsp hpfs hinv
        obtain ⟨hT1, hT2, hT3, hT4, hT5, hT6, toks2, hT7, hT8⟩ := textOpt hB2 hB4
        have hC' : closeH (openH st) = Except.ok stB := by rw [hO]; exact hC
        have hlenB : stB.stack.length = st.stack.length - 1 := by omega
        have hokB : OkD stB.stack.length stB.input := by
          rw [hB1, hlenB]
          exact hokr
        refine ⟨textH stB, by rw [next_hs0, hC', ebind_ok], hT1, hT2, hT4.trans hB6,
          hT5 hokB, ?_, ')' :: toks2, by simp, ?_, ?_⟩
        · rw [hT6, hB1, hlenB, hi, depthAfter_close, hstk]
        · rw [hi]
          rw [hB1] at hT7
          rw [hT7]
          rfl
        · rw [hT8, hB5]
          simp
    · have hcc : ¬(c = '(' ∨ c = ')') := by
        intro h
        cases h with
        | inl h => exact hc1 h
        | inr h => exact hc2 h
      have hO : openH st = st := openH_other st c r hi hc1
      have hCo : closeH st = Except.ok st := closeH_other st c r hi hc2
      have hC' : closeH (openH st) = Except.ok st := by rw [hO]; exact hCo
      obtain ⟨h1, h2, h3, h4, h5, h6⟩ := stepText hi hcc hsp hinv
      rw [hi] at hok
      refine ⟨textH st, by rw [next_hs0, hC', ebind_ok], h2, h4, h6, ?_, ?_, [c],
        by simp, ?_, h5⟩
      · rw [h3, h1]
        exact (OkD_text_iff hc1 hc2).mp hok
      · rw [h3, h1, hi, depthAfter_text _ _ hc1 hc2]
      · rw [hi, h1]
        rfl

theorem loop_nil (hs : List H) (st : PState) (hi : st.input = []) :
    loop hs st = Except.ok st := by
  show loopF hs (st.input.length + 1) st = Except.ok st
  rw [loopF_succ, if_pos hi]

theorem loop_step (hs : List H) (st stN : PState) (hi : st.input ≠ [])
    (hn : next hs st = Except.ok stN) (hlt : stN.input.length < st.input.length) :
    loop hs st = loop hs stN := by
  rw [loop_unfold hs st hi, hn]
  dsimp only
  have hcond : ¬(stN.input ≠ [] ∧ stN.input = st.input) := by
    intro hcon
    rw [hcon.2] at hlt
    exact lt_irrefl _ hlt
  rw [if_neg hcond]

/-- The main loop invariant run: under the Dyck prefix condition the
`while` loop consumes everything, never errors, keeps the two tracker
stacks in lock-step, preserves the parse/render correspondence, and ends
at the predicted nesting depth. -/
theorem loop_run (N : Nat) : ∀ st : PState, st.input.length < N →
    st.stack = st.parens → renderInv st → OkD st.stack.length st.input →
    ∃ st', loop hs0 st = Except.ok st' ∧ st'.input = [] ∧
      st'.stack = st'.parens ∧ renderInv st' ∧
      st'.parsed = st.parsed ++ st.input ∧
      st'.stack.length = depthAfter st.stack.length st.input := by
  induction N with
  | zero =>
    intro st h _ _ _
    omega
  | succ N ih =>
    intro st hN hsp hinv hok
    cases hi : st.input with
    | nil =>
      refine ⟨st, loop_nil hs0 st hi, hi, hsp, hinv, by simp, rfl⟩
    | cons c r =>
      obtain ⟨stN, hnext, hNsp, hNinv, hNo, hNok, hNdep, toks, htne, htin, htp⟩ :=
        pass_next hi hsp hinv hok
      have hlt : stN.input.length < st.input.length := by
        have h1 : st.input.length = toks.length + stN.input.length := by
          rw [htin, List.length_append]
        have h2 : 0 < toks.length := List.length_pos.mpr htne
        omega
      have hloop := loop_step hs0 st stN (by rw [hi]; exact List.cons_ne_nil c r) hnext hlt
      have hNlt : stN.input.length < N := by
        rw [hi] at hN hlt
        simp only [List.length_cons] at hN hlt
        omega
      obtain ⟨st', h1, h2, h3, h4, h5, h6⟩ := ih stN hNlt hNsp hNinv hNok
      refine ⟨st', hloop ▸ h1, h2, h3, h4, ?_, ?_⟩
      · rw [h5, htp]
        rw [hi] at htin
        rw [htin]
        simp
      · rw [hi] at hNdep
        rw [h6, hNdep]

theorem Bal_OkD {s : List Char} (hb : Bal s) : OkD 0 s ∧ depthAfter 0 s = 0 := by
  have h := Bal_transfer hb 0 []
  rw [List.append_nil] at h
  exact ⟨h.1 trivial, h.2⟩

theorem appendCur_of_stack_nil {st : PState} (n : Node) (h : st.stack = []) :
    appendCur st n = { st with root := st.root ++ [n] } := by
  unfold appendCur
  rw [h]

/-- The parse of a balanced input succeeds with an empty nesting stack,
and the verbatim renderer reproduces the input from the resulting AST. -/
theorem balanced_roundtrip (s : List Char) (hb : Bal s) :
    ∃ stF, parseSt hs0 false false initSt s = Except.ok stF ∧ stF.stack = [] ∧
      parse false false s = Except.ok (astOf stF) ∧
      render (astOf stF) = Except.ok s := by
  obtain ⟨hok, hdep⟩ := Bal_OkD hb
  have hinit : renderInv ({ initSt with orig := s, input := s } : PState) :=
    ⟨[], [], mapVisit_single visit_bos, framesRenderE_nil, rfl⟩
  obtain ⟨st', hloop, hin, hsp', hinv', hparsed, hlen⟩ :=
    loop_run (s.length + 1) { initSt with orig := s, input := s }
      (by simp) rfl hinit hok
  simp only [initSt, List.length_nil, List.nil_append] at hparsed hlen
  have hstk' : st'.stack = [] := by
    rw [hdep] at hlen
    exact List.length_eq_zero.mp hlen
  have hps : parseSt hs0 false false initSt s = Except.ok (eos st') := by
    unfold parseSt
    rw [hloop, ebind_ok, hstk']
  obtain ⟨a, b, ha, hb', hp⟩ := hinv'
  rw [hstk', framesRenderE_nil] at hb'
  cases hb'
  have hpa : a = s := by
    have h2 : st'.parsed = a := by rw [hp]; simp
    rw [hparsed] at h2
    exact h2.symm
  have heos : eos st' = { st' with root := st'.root ++ [eosN] } :=
    appendCur_of_stack_nil eosN hstk'
  have hast : astOf (eos st') = st'.root ++ [eosN] := by
    rw [heos]
    unfold astOf
    rw [show ({ st' with root := st'.root ++ [eosN] } : PState).stack = [] from hstk']
  refine ⟨eos st', hps, ?_, ?_, ?_⟩
  · rw [heos]
    exact hstk'
  · unfold parse
    rw [hps]
    rfl
  · rw [hast]
    unfold render
    rw [mapVisit_ok_append ha (mapVisit_single visit_eos)]
    rw [hpa]
    simp

/-!
## State preserved across the loop: `this.orig` is only written by `parse`
-/
theorem updatePositionE_orig (st : PState) (s : List Char) :
    (updatePositionE st s).orig = st.orig := rfl

theorem runH_orig (h : H) (st st' : PState) (hr : runH h st = Except.ok st') :
    st'.orig = st.orig := by
  cases h with
  | popen =>
    simp only [runH, Except.ok.injEq] at hr
    subst hr
    cases hi : st.input with
    | nil => rw [openH_nil st hi]
    | cons c r =>
      by_cases hc : c = '('
      · subst hc
        rw [openH_open st r hi]
      · rw [openH_other st c r hi hc]
  | pclose =>
    cases hi : st.input with
    | nil =>
      rw [show runH H.pclose st = closeH st from rfl, closeH_nil st hi] at hr
      cases hr; rfl
    | cons c r =>
      by_cases hc : c = ')'
      · subst hc
        cases hp : st.parens with
        | nil =>
          rw [show runH H.pclose st = closeH st from rfl, closeH_empty st r hi hp] at hr
          cases hr
        | cons f gs =>
          rw [show runH H.pclose st = closeH st from rfl, closeH_pop st r f gs hi hp] at hr
          cases hr
          rw [appendCur_orig]
      · rw [show runH H.pclose st = closeH st from rfl, closeH_other st c r hi hc] at hr
        cases hr; rfl
  | text =>
    simp only [runH, Except.ok.injEq] at hr
    subst hr
    cases hi : st.input with
    | nil => rw [textH_nil st hi]
    | cons c r =>
      by_cases hc : c = '(' ∨ c = ')'
      · rw [textH_other st c r hi hc]
      · rw [textH_take st c r hi hc, appendCur_orig]

theorem next_orig (hs : List H) (st st' : PState) (hn : next hs st = Except.ok st') :
    st'.orig = st.orig := by
  induction hs generalizing st with
  | nil => simp only [next, Except.ok.injEq] at hn; subst hn; rfl
  | cons h rest ih =>
    simp only [next] at hn
    cases hr : runH h st with
    | error e => rw [hr, ebind_err] at hn; cases hn
    | ok st1 =>
      rw [hr, ebind_ok] at hn
      exact (ih st1 hn).trans (runH_orig h st st1 hr)

theorem loopF_orig (hs : List H) (fuel : Nat) (st st' : PState)
    (h : loopF hs fuel st = Except.ok st') : st'.orig = st.orig := by
  induction fuel generalizing st with
  | zero =>
    simp only [loopF, Except.ok.injEq] at h
    subst h; rfl
  | succ fuel ih =>
    rw [loopF_succ] at h
    by_cases hi : st.input = []
    · rw [if_pos hi] at h
      cases h; rfl
    · rw [if_neg hi] at h
      cases hn : next hs st with
      | error e => rw [hn] at h; cases h
      | ok stN =>
        rw [hn] at h
        dsimp only at h
        by_cases hp : stN.input ≠ [] ∧ stN.input = st.input
        · rw [if_pos hp] at h; cases h
        · rw [if_neg hp] at h
          exact (ih stN h).trans (next_orig hs st stN hn)

theorem loop_orig (hs : List H) (st st' : PState) (h : loop hs st = Except.ok st') :
    st'.orig = st.orig :=
  loopF_orig hs (st.input.length + 1) st st' h

/-!
## Position lemmas for the middleware-mode engine
-/
theorem lastIndexOf_eq_none {c : Char} {s : List Char} (h : c ∉ s) :
    lastIndexOf c s = none := by
  induction s with
  | nil => rfl
  | cons a rest ih =>
    rw [lastIndexOf, ih (fun hm => h (List.mem_cons_of_mem a hm))]
    rw [if_neg (fun he => h (by rw [← he]; exact List.mem_cons_self a rest))]

theorem columnSpec_of_lastIndexOf_none {s : List Char} (h : lastIndexOf '\n' s = none)
    (col : Nat) : columnSpec col s = col + s.length := by
  induction s generalizing col with
  | nil => rfl
  | cons a rest ih =>
    rw [lastIndexOf] at h
    cases hr : lastIndexOf '\n' rest with
    | some j => rw [hr] at h; cases h
    | none =>
      rw [hr] at h
      have ha : a ≠ '\n' := by
        intro he
        rw [if_pos he] at h
        cases h
      rw [columnSpec, if_neg ha, ih hr]
      simp only [List.length_cons]
      omega

theorem columnSpec_of_lastIndexOf_some {s : List Char} {i : Nat}
    (h : lastIndexOf '\n' s = some i) (col : Nat) :
    columnSpec col s = s.length - i := by
  induction s generalizing col i with
  | nil => cases h
  | cons a rest ih =>
    rw [lastIndexOf] at h
    cases hr : lastIndexOf '\n' rest with
    | some j =>
      rw [hr] at h
      cases h
      rw [columnSpec, ih hr]
      simp only [List.length_cons]
      omega
    | none =>
      rw [hr] at h
      by_cases ha : a = '\n'
      · rw [if_pos ha] at h
        cases h
        rw [columnSpec, if_pos ha, columnSpec_of_lastIndexOf_none hr]
        simp only [List.length_cons]
        omega
      · rw [if_neg ha] at h
        cases h

mutual

theorem visit_ok (n : Node) (h : allReg n = true) : ∃ v, visit n = Except.ok v := by
  cases n with
  | mk t v ns =>
    rw [allReg] at h
    simp only [Bool.and_eq_true, decide_eq_true_eq] at h
    rw [visit]
    by_cases ht : t = "paren"
    · rw [if_pos ht]
      exact mapVisit_ok ns h.2
    · rw [if_neg ht, if_pos h.1]
      exact ⟨v, rfl⟩

theorem mapVisit_ok (ns : List Node) (h : allRegL ns = true) :
    ∃ v, mapVisit ns = Except.ok v := by
  cases ns with
  | nil => exact ⟨[], rfl⟩
  | cons n rest =>
    rw [allRegL] at h
    simp only [Bool.and_eq_true] at h
    obtain ⟨v1, h1⟩ := visit_ok n h.1
    obtain ⟨v2, h2⟩ := mapVisit_ok rest h.2
    exact ⟨v1 ++ v2, by rw [mapVisit_cons, h1, ebind_ok, h2, ebind_ok]; rfl⟩

end

/-!
## Middleware-mode loop facts
-/
theorem sadvance_original (st : SState) (s : List Char) :
    (sadvance st s).original = st.original := rfl

theorem srun_original (fns : List MW) (st : SState) (n : Node) (st' : SState)
    (h : srun fns st = some (n, st')) : st'.original = st.original := by
  induction fns with
  | nil => cases h
  | cons f rest ih =>
    rw [srun] at h
    cases hf : f st.input with
    | some p =>
      rw [hf] at h
      cases h
      rfl
    | none =>
      rw [hf] at h
      exact ih h

theorem sloop_original (fns : List MW) (fuel : Nat) (st st' : SState)
    (h : sloop fns fuel st = some st') : st'.original = st.original := by
  induction fuel generalizing st with
  | zero => cases h
  | succ fuel ih =>
    rw [sloop] at h
    by_cases hi : st.input = []
    · rw [if_pos hi] at h
      cases h; rfl
    · rw [if_neg hi] at h
      cases hr : srun fns st with
      | none =>
        rw [hr] at h
        cases h; rfl
      | some p =>
        rw [hr] at h
        have := ih _ h
        rw [this]
        exact srun_original fns st p.1 p.2 (by rw [hr])

theorem mem_of_lastIndexOf_some {c : Char} {s : List Char} {i : Nat}
    (h : lastIndexOf c s = some i) : c ∈ s := by
  induction s generalizing i with
  | nil => cases h
  | cons a rest ih =>
    rw [lastIndexOf] at h
    cases hr : lastIndexOf c rest with
    | some j => exact List.mem_cons_of_mem a (ih hr)
    | none =>
      rw [hr] at h
      by_cases ha : a = c
      · rw [ha]
        exact List.mem_cons_self c rest
      · rw [if_neg ha] at h
        cases h

theorem not_mem_of_lastIndexOf_none {c : Char} {s : List Char}
    (h : lastIndexOf c s = none) : c ∉ s := by
  induction s with
  | nil => simp
  | cons a rest ih =>
    rw [lastIndexOf] at h
    cases hr : lastIndexOf c rest with
    | some j => rw [hr] at h; cases h
    | none =>
      rw [hr] at h
      by_cases ha : a = c
      · rw [if_pos ha] at h
        cases h
      · intro hm
        cases List.mem_cons.mp hm with
        | inl he => exact ha he.symm
        | inr hm => exact ih hr hm

theorem appendCur_of_stack_cons {st : PState} (n : Node) {f : Frame} {fs : List Frame}
    (h : st.stack = f :: fs) :
    (appendCur st n).stack = (f ++ [n]) :: fs ∧ (appendCur st n).root = st.root := by
  unfold appendCur
  rw [h]
  exact ⟨rfl, rfl⟩

theorem runH_lockstep (h : H) (st st' : PState) (hr : runH h st = Except.ok st')
    (hsp : st.stack = st.parens) : st'.stack = st'.parens := by
  cases h with
  | popen =>
    simp only [runH, Except.ok.injEq] at hr
    subst hr
    cases hi : st.input with
    | nil => rw [openH_nil st hi]; exact hsp
    | cons c r =>
      by_cases hc : c = '('
      · subst hc
        rw [openH_open st r hi]
        show [openN] :: st.stack = [openN] :: st.parens
        rw [hsp]
      · rw [openH_other st c r hi hc]; exact hsp
  | pclose =>
    cases hi : st.input with
    | nil =>
      rw [show runH H.pclose st = closeH st from rfl, closeH_nil st hi] at hr
      cases hr; exact hsp
    | cons c r =>
      by_cases hc : c = ')'
      · subst hc
        cases hp : st.parens with
        | nil =>
          rw [show runH H.pclose st = closeH st from rfl, closeH_empty st r hi hp] at hr
          cases hr
        | cons f gs =>
          rw [show runH H.pclose st = closeH st from rfl, closeH_pop st r f gs hi hp] at hr
          cases hr
          refine appendCur_lockstep _ ?_
          show st.stack.tail = gs
          rw [hsp, hp, List.tail_cons]
      · rw [show runH H.pclose st = closeH st from rfl, closeH_other st c r hi hc] at hr
        cases hr; exact hsp
  | text =>
    simp only [runH, Except.ok.injEq] at hr
    subst hr
    cases hi : st.input with
    | nil => rw [textH_nil st hi]; exact hsp
    | cons c r =>
      by_cases hc : c = '(' ∨ c = ')'
      · rw [textH_other st c r hi hc]; exact hsp
      · rw [textH_take st c r hi hc]
        exact appendCur_lockstep _ hsp

theorem sloop_mwStall_none (fuel : Nat) : ∀ st : SState, st.input ≠ [] →
    sloop [mwStall] fuel st = none := by
  induction fuel with
  | zero => intro st _; rfl
  | succ fuel ih =>
    intro st hi
    rw [sloop, if_neg hi]
    show sloop [mwStall] fuel _ = none
    refine ih _ ?_
    show (sadvance st []).input ≠ []
    show st.input.drop ([] : List Char).length ≠ []
    simpa using hi

/-!
## The claims
-/
/-- C1: for every input composed only of well-balanced registered pair
constructs, `parse` succeeds, the Nesting Tracker's flattened stack is
empty at completion, and rendering the resulting AST with the verbatim
render functions (each node emits its raw value, containers render their
children) reproduces the input string exactly. -/
theorem c1_balanced_roundtrip (s : List Char) (hb : Bal s) :
    ∃ stF, parseSt hs0 false false initSt s = Except.ok stF ∧ stF.stack = [] ∧
      parse false false s = Except.ok (astOf stF) ∧
      render (astOf stF) = Except.ok s :=
  balanced_roundtrip s hb

/-- Witness for C1 at the spec's example input `"(a|b)"`. -/
theorem c1_witness :
    ∃ stF, parseSt hs0 false false initSt ['(', 'a', '|', 'b', ')'] = Except.ok stF ∧
      stF.stack = [] ∧
      parse false false ['(', 'a', '|', 'b', ')'] = Except.ok (astOf stF) ∧
      render (astOf stF) = Except.ok ['(', 'a', '|', 'b', ')'] :=
  c1_balanced_roundtrip ['(', 'a', '|', 'b', ')']
    (Bal.par (s := ['a', '|', 'b']) (t := [])
      (Bal.chr (by decide) (by decide)
        (Bal.chr (by decide) (by decide)
          (Bal.chr (by decide) (by decide) Bal.nil)))
      Bal.nil)

/-- C2 (amended): in the fixed-table engine a zero-consumption pass with
input remaining raises the fatal no-handler error naming the leading
character, and every pass either consumes at least one character or the
loop stops; the middleware-mode engine instead exits its `while` loop
silently — no error, input left unconsumed — when no middleware returns a
node, and loops forever when a middleware keeps returning nodes without
consuming. -/
theorem c2_progress_amended :
    (∀ (hs : List H) (st st' : PState), st.input ≠ [] →
      next hs st = Except.ok st' → st'.input = st.input →
      loop hs st = Except.error (Err.noParser (st'.input.headD ' '))) ∧
    (∀ (hs : List H) (st st' : PState), next hs st = Except.ok st' →
      st'.input ≠ st.input → st'.input.length < st.input.length) ∧
    (∀ (s : List Char) (fuel : Nat), s ≠ [] →
      sparse [] (fuel + 1) sInit (JSVal.str s) =
        some ({ sInit with original := s, input := s }, none)) ∧
    (∀ (fuel : Nat) (st : SState), st.input ≠ [] →
      sloop [mwStall] fuel st = none) := by
  refine ⟨?_, ?_, ?_, sloop_mwStall_none⟩
  · intro hs st st' h1 h2 h3
    rw [loop_unfold hs st h1, h2]
    dsimp only
    rw [if_pos ⟨by rw [h3]; exact h1, h3⟩]
  · intro hs st st' h1 h2
    exact next_progress hs st st' h1 h2
  · intro s fuel hne
    show (sloop [] (fuel + 1)
      { sInit with original := [] ++ s, input := [] ++ s }).map
        (fun st' => (st', none)) = _
    simp only [List.nil_append]
    rw [sloop, if_neg (show ¬({ sInit with original := s, input := s } : SState).input = []
      from hne)]
    rfl

/-- Counterexample to C2 as stated: with no middleware registered, a full
pass consumes zero characters while input `"a"` remains, yet the
middleware-mode `parse` returns silently with no error. -/
theorem c2_counterexample :
    sparse [] 5 sInit (JSVal.str ['a']) =
      some ({ sInit with original := ['a'], input := ['a'] }, none) ∧
    (['a'] : List Char) ≠ [] :=
  ⟨rfl, by decide⟩

/-- Witness for C2 (amended), one instance per conjunct. -/
theorem c2_witness :
    loop [H.text] { initSt with input := ['('] } = Except.error (Err.noParser '(') ∧
    ({ root := [bosN, Node.mk "text" ['a'] []], stack := [], parens := [], count := 0,
        input := [], parsed := ['a'], column := 2, orig := [] } : PState).input.length <
      ({ initSt with input := ['a'] } : PState).input.length ∧
    sparse [] 5 sInit (JSVal.str ['a']) =
      some ({ sInit with original := ['a'], input := ['a'] }, none) ∧
    sloop [mwStall] 3 { sInit with input := ['a'] } = none :=
  ⟨c2_progress_amended.1 [H.text] _ _ (by decide) rfl rfl,
   c2_progress_amended.2.1 hs0 { initSt with input := ['a'] } _ rfl (by decide),
   c2_progress_amended.2.2.1 ['a'] 4 (by decide),
   c2_progress_amended.2.2.2 3 _ (by decide)⟩

/-- C3: a close-rule match while the per-kind nesting stack is empty
raises the fatal missing-opening error immediately, and an input with a
close token and no matching open (a lone `")"`) errors under every
strict/silent configuration. -/
theorem c3_unbalanced_close :
    (∀ (st : PState) (r : List Char), st.input = ')' :: r → st.parens = [] →
      next hs0 st = Except.error (Err.missingOpening "paren")) ∧
    (∀ strict silent : Bool, parseSt hs0 strict silent initSt [')'] =
      Except.error (Err.missingOpening "paren")) := by
  constructor
  · intro st r hi hp
    rw [next_hs0, openH_other st ')' r hi (by decide), closeH_empty st r hi hp, ebind_err]
  · intro strict silent
    rfl

/-- Witness for C3. -/
theorem c3_witness :
    next hs0 { initSt with input := [')'] } = Except.error (Err.missingOpening "paren") ∧
    parseSt hs0 true true initSt [')'] = Except.error (Err.missingOpening "paren") :=
  ⟨c3_unbalanced_close.1 _ [] rfl rfl, c3_unbalanced_close.2 true true⟩

/-- C4: end of input with a non-empty nesting stack — strict mode makes
`parse` raise the fatal unterminated-construct error naming the unmatched
open node's kind; non-strict mode succeeds, the open containers stay in
the AST built from their accumulated children (`collapseF` adds no close
node), and the parse returns the eos-terminated state. -/
theorem c4_unterminated (s : List Char) (st : PState) (f : Frame) (fs : List Frame)
    (hloop : loop hs0 { initSt with orig := s, input := s } = Except.ok st)
    (hstk : st.stack = f :: fs) :
    parseSt hs0 true false initSt s = Except.error (Err.strictUnterminated "paren") ∧
    parseSt hs0 false false initSt s = Except.ok (eos st) ∧
    astOf (eos st) = collapseF fs (f ++ [eosN]) st.root := by
  refine ⟨?_, ?_, ?_⟩
  · unfold parseSt
    rw [hloop, ebind_ok, hstk]
    rfl
  · unfold parseSt
    rw [hloop, ebind_ok, hstk]
  · obtain ⟨h1, h2⟩ := appendCur_of_stack_cons eosN hstk
    unfold astOf
    rw [show (eos st).stack = (f ++ [eosN]) :: fs from h1,
      show (eos st).root = st.root from h2]

/-- Witness for C4 at the spec's example input `"(a"`. -/
theorem c4_witness :
    parseSt hs0 true false initSt ['(', 'a'] =
      Except.error (Err.strictUnterminated "paren") ∧
    parseSt hs0 false false initSt ['(', 'a'] =
      Except.ok (eos
        { root := [bosN], stack := [[openN, Node.mk "text" ['a'] []]],
          parens := [[openN, Node.mk "text" ['a'] []]], count := 1, input := [],
          parsed := ['(', 'a'], column := 3, orig := ['(', 'a'] }) ∧
    astOf (eos
        { root := [bosN], stack := [[openN, Node.mk "text" ['a'] []]],
          parens := [[openN, Node.mk "text" ['a'] []]], count := 1, input := [],
          parsed := ['(', 'a'], column := 3, orig := ['(', 'a'] }) =
      collapseF [] ([openN, Node.mk "text" ['a'] []] ++ [eosN]) [bosN] :=
  c4_unterminated ['(', 'a'] _ [openN, Node.mk "text" ['a'] []] [] rfl rfl

/-- Counterexample to C5 as stated: the non-strict parse of `"("`
completes without fatal error, but the eos sentinel is appended inside
the still-open container; the last child of the document root is the
`paren` container, not an eos node. -/
theorem c5_counterexample :
    parse false false ['('] =
      Except.ok [bosN, Node.mk "paren" [] [openN, eosN]] ∧
    (Node.mk "paren" [] [openN, eosN]).type ≠ "eos" :=
  ⟨rfl, by decide⟩

/-- C5 (amended): every parse that completes without fatal error appends
the end-of-stream sentinel — which carries no consumed text — as the last
child of the innermost still-open container when the nesting stack is
non-empty, and as the last child of the document root otherwise. -/
theorem c5_eos_amended (s : List Char) (st : PState)
    (hloop : loop hs0 { initSt with orig := s, input := s } = Except.ok st) :
    parseSt hs0 false false initSt s = Except.ok (eos st) ∧
    eosN.val = [] ∧
    (st.stack = [] → astOf (eos st) = st.root ++ [eosN]) ∧
    (∀ f fs, st.stack = f :: fs →
      astOf (eos st) = collapseF fs (f ++ [eosN]) st.root) := by
  refine ⟨?_, rfl, ?_, ?_⟩
  · unfold parseSt
    rw [hloop, ebind_ok]
    cases hstk : st.stack with
    | nil => rfl
    | cons f fs => rfl
  · intro h
    rw [show eos st = { st with root := st.root ++ [eosN] } from
      appendCur_of_stack_nil eosN h]
    unfold astOf
    rw [show ({ st with root := st.root ++ [eosN] } : PState).stack = [] from h]
  · intro f fs h
    obtain ⟨h1, h2⟩ := appendCur_of_stack_cons eosN h
    unfold astOf
    rw [show (eos st).stack = (f ++ [eosN]) :: fs from h1,
      show (eos st).root = st.root from h2]

/-- Witness for C5 (amended) at input `"a"` (empty stack at completion). -/
theorem c5_witness :
    parseSt hs0 false false initSt ['a'] =
      Except.ok (eos
        { root := [bosN, Node.mk "text" ['a'] []], stack := [], parens := [],
          count := 0, input := [], parsed := ['a'], column := 2, orig := ['a'] }) ∧
    astOf (eos
        { root := [bosN, Node.mk "text" ['a'] []], stack := [], parens := [],
          count := 0, input := [], parsed := ['a'], column := 2, orig := ['a'] }) =
      [bosN, Node.mk "text" ['a'] []] ++ [eosN] :=
  ⟨(c5_eos_amended ['a'] _ rfl).1, (c5_eos_amended ['a'] _ rfl).2.2.1 rfl⟩

/-- C6: the Nesting Tracker's stacks move in lock-step — `push` puts the
token on both the flattened stack and its kind's stack (and bumps the
counter) in the same operation, `pop` removes from both in lock-step, the
flattened stack after any operation sequence is exactly the list of
most-recently-opened not-yet-closed containers (newest first, so its top
is the most recent one), and every parser handler preserves the equality
of the two stacks. -/
theorem c6_tracker_lockstep :
    (∀ (t : Tracker) (ty : String) (tok : Node),
      (t.push ty tok).stack = tok :: t.stack ∧
      (t.push ty tok).sets ty = tok :: t.sets ty ∧
      (t.push ty tok).count = t.count + 1 ∧
      ∀ ty2, ty2 ≠ ty → (t.push ty tok).sets ty2 = t.sets ty2) ∧
    (∀ (t : Tracker) (ty : String),
      (t.pop ty).1.stack = t.stack.tail ∧
      (t.pop ty).1.sets ty = (t.sets ty).tail ∧
      (t.pop ty).1.count = t.count - 1 ∧
      (t.pop ty).2 = (t.sets ty).head?) ∧
    (∀ ops : List TOp, (applyOps ops emptyTracker).stack = specOpenStack ops) ∧
    (∀ (h : H) (st st' : PState), runH h st = Except.ok st' →
      st.stack = st.parens → st'.stack = st'.parens) := by
  refine ⟨?_, ?_, ?_, runH_lockstep⟩
  · intro t ty tok
    refine ⟨rfl, by simp [Tracker.push], rfl, ?_⟩
    intro ty2 hne
    simp [Tracker.push, hne]
  · intro t ty
    exact ⟨rfl, by simp [Tracker.pop], rfl, rfl⟩
  · intro ops
    exact applyOps_stack_eq_specOpenGo ops emptyTracker

/-- Witness for C6: a concrete push, a push-then-pop sequence, and a
concrete handler step each instantiate the corresponding conjunct. -/
theorem c6_witness :
    (emptyTracker.push "paren" bosN).stack = [bosN] ∧
    (emptyTracker.push "paren" bosN).sets "brace" = emptyTracker.sets "brace" ∧
    (applyOps [TOp.push "paren" bosN, TOp.pop "paren"] emptyTracker).stack =
      specOpenStack [TOp.push "paren" bosN, TOp.pop "paren"] ∧
    (openH { initSt with input := ['('] }).stack =
      (openH { initSt with input := ['('] }).parens :=
  ⟨(c6_tracker_lockstep.1 emptyTracker "paren" bosN).1,
   (c6_tracker_lockstep.1 emptyTracker "paren" bosN).2.2.2 "brace" (by decide),
   c6_tracker_lockstep.2.2.1 [TOp.push "paren" bosN, TOp.pop "paren"],
   c6_tracker_lockstep.2.2.2 H.popen { initSt with input := ['('] } _ rfl rfl⟩

/-- Counterexample to C7 as stated: the fixed-table engine's
`updatePosition` (one of the claim's two cited symbols) adds the raw
consumed length to the column even across a newline — consuming `"\n"`
at column 5 yields column 6, not a reset to 1 — and tracks no line
count at all. -/
theorem c7_counterexample :
    (updatePositionE
      { root := [bosN], stack := [], parens := [], count := 0,
        input := ['\n'], parsed := [], column := 5, orig := [] } ['\n']).column = 6 ∧
    (6 : Nat) ≠ 1 :=
  ⟨rfl, by decide⟩

/-- C7 (amended): the middleware-mode engine's `updatePosition` increments
the line count by the number of newline characters consumed and computes
the column by the reset-to-1-at-each-newline rule (`columnSpec`), and
positions advance monotonically (line strictly grows, or line is equal
and column does not decrease), so consecutive snapshots — each node's
start and the previous node's end — are ordered; the fixed-table engine's
`updatePosition` instead adds the raw consumed length to its column with
no newline handling. -/
theorem c7_position_amended (p : SPos) (s : List Char) :
    (supdatePosition p s s.length).lineno = p.lineno + s.count '\n' ∧
    (supdatePosition p s s.length).column = columnSpec p.column s ∧
    (p.lineno < (supdatePosition p s s.length).lineno ∨
      (p.lineno = (supdatePosition p s s.length).lineno ∧
        p.column ≤ (supdatePosition p s s.length).column)) ∧
    (∀ st : PState, (updatePositionE st s).column = st.column + s.length) := by
  refine ⟨rfl, ?_, ?_, fun st => rfl⟩
  · show (match lastIndexOf '\n' s with
      | some i => s.length - i
      | none => p.column + s.length) = columnSpec p.column s
    cases h : lastIndexOf '\n' s with
    | some i => rw [columnSpec_of_lastIndexOf_some h]
    | none => rw [columnSpec_of_lastIndexOf_none h]
  · cases h : lastIndexOf '\n' s with
    | some i =>
      left
      have hm : '\n' ∈ s := mem_of_lastIndexOf_some h
      have hc : 0 < s.count '\n' := List.count_pos_iff.mpr hm
      show p.lineno < p.lineno + s.count '\n'
      omega
    | none =>
      right
      have hm : '\n' ∉ s := not_mem_of_lastIndexOf_none h
      have hc : s.count '\n' = 0 := by
        simpa using List.count_eq_zero.mpr hm
      constructor
      · show p.lineno = p.lineno + s.count '\n'
        omega
      · show p.column ≤ (match lastIndexOf '\n' s with
          | some i => s.length - i
          | none => p.column + s.length)
        rw [h]
        exact Nat.le_add_right _ _

/-- C8: visiting a node whose kind has no registered render function
raises the fatal unregistered-renderer error naming that kind and the raw
value; rendering an AST in which every node's kind has a registered
render function never raises this error. -/
theorem c8_unregistered_renderer :
    (∀ (t : String) (v : List Char) (ns : List Node), t ∉ registeredTypes →
      visit (Node.mk t v ns) = Except.error (RErr.unregistered t v)) ∧
    (∀ n : Node, allReg n = true → ∃ v, visit n = Except.ok v) ∧
    (∀ ast : List Node, allRegL ast = true → ∃ v, render ast = Except.ok v) := by
  refine ⟨?_, visit_ok, ?_⟩
  · intro t v ns ht
    rw [visit, if_neg (fun he => ht (by rw [he]; decide)), if_neg ht]
  · intro ast h
    exact mapVisit_ok ast h

/-- Witness for C8: an unregistered kind errors naming kind and value; a
fully registered tree renders. -/
theorem c8_witness :
    visit (Node.mk "custom" ['x'] []) =
      Except.error (RErr.unregistered "custom" ['x']) ∧
    (∃ v, visit (Node.mk "paren" [] [openN, closeN]) = Except.ok v) ∧
    (∃ v, render [bosN, Node.mk "text" ['x'] [], eosN] = Except.ok v) :=
  ⟨c8_unregistered_renderer.1 "custom" ['x'] [] (by decide),
   c8_unregistered_renderer.2.1 (Node.mk "paren" [] [openN, closeN]) (by decide),
   c8_unregistered_renderer.2.2 [bosN, Node.mk "text" ['x'] [], eosN] (by decide)⟩

/-- Counterexample to C9 as stated: the fixed-table engine's `parse`
(`this.orig = input`) replaces — not appends — the original-text field,
so after `parse("a")` then `parse("b")` on one instance the field holds
`"b"`, not `"ab"`. -/
theorem c9_counterexample :
    ((parseSt hs0 false false initSt ['a']).bind
      (fun st1 => parseSt hs0 false false st1 ['b'])).map PState.orig =
      Except.ok ['b'] ∧
    (['b'] : List Char) ≠ ['a'] ++ ['b'] :=
  ⟨rfl, by decide⟩

/-- C9 (amended): the middleware-mode engine's `parse` appends to its
running `original` buffer — after `parse(a)` then `parse(b)` the buffer
is the previous contents followed by `a` then `b` — while the fixed-table
engine's `parse` replaces `this.orig`, leaving only the last input. -/
theorem c9_original_amended :
    (∀ (fns : List MW) (f1 f2 : Nat) (st st1 st2 : SState) (a b : List Char),
      sparse fns f1 st (JSVal.str a) = some (st1, none) →
      sparse fns f2 st1 (JSVal.str b) = some (st2, none) →
      st2.original = st.original ++ a ++ b) ∧
    (∀ (strict silent : Bool) (st st1 st2 : PState) (a b : List Char),
      parseSt hs0 strict silent st a = Except.ok st1 →
      parseSt hs0 strict silent st1 b = Except.ok st2 →
      st2.orig = b) := by
  constructor
  · intro fns f1 f2 st st1 st2 a b h1 h2
    have key : ∀ (fuel : Nat) (s0 s1 : SState) (x : List Char),
        sparse fns fuel s0 (JSVal.str x) = some (s1, none) →
        s1.original = s0.original ++ x := by
      intro fuel s0 s1 x h
      unfold sparse at h
      dsimp only at h
      cases hsl : sloop fns fuel
          { s0 with
              original := s0.original ++ x, input := s0.input ++ x } with
      | none => rw [hsl] at h; cases h
      | some sx =>
        rw [hsl] at h
        simp only [Option.map, Option.some.injEq, Prod.mk.injEq] at h
        rw [← h.1]
        exact sloop_original fns fuel _ _ hsl
    rw [key f2 st1 st2 b h2, key f1 st st1 a h1]
  · intro strict silent st st1 st2 a b h1 h2
    have key : ∀ (s0 s1 : PState) (x : List Char),
        parseSt hs0 strict silent s0 x = Except.ok s1 → s1.orig = x := by
      intro s0 s1 x h
      unfold parseSt at h
      cases hl : loop hs0 { s0 with orig := x, input := x } with
      | error e => rw [hl, ebind_err] at h; cases h
      | ok sx =>
        rw [hl, ebind_ok] at h
        have horig : sx.orig = x := loop_orig hs0 _ sx hl
        cases hstk : sx.stack with
        | nil =>
          rw [hstk] at h
          cases strict with
          | false =>
            cases h
            show (appendCur sx eosN).orig = x
            rw [appendCur_orig]
            exact horig
          | true =>
            cases h
            show (appendCur sx eosN).orig = x
            rw [appendCur_orig]
            exact horig
        | cons f fs =>
          rw [hstk] at h
          cases strict with
          | false =>
            cases h
            show (appendCur sx eosN).orig = x
            rw [appendCur_orig]
            exact horig
          | true => cases h
    exact key st1 st2 b h2

/-- Witness for C9 (amended): both engines exercised on `"ab"`-style
double parses. -/
theorem c9_witness :
    ({ original := ['a', 'b'], input := ['a', 'b'], parsed := [], lineno := 1,
        column := 1, nodes := [] } : SState).original = ([] : List Char) ++ ['a'] ++ ['b'] ∧
    ({ root := [bosN, Node.mk "text" ['a'] [], eosN, Node.mk "text" ['b'] [], eosN],
        stack := [], parens := [], count := 0, input := [], parsed := ['a', 'b'],
        column := 3, orig := ['b'] } : PState).orig = ['b'] :=
  ⟨c9_original_amended.1 [] 1 1 sInit _ _ ['a'] ['b'] rfl rfl,
   c9_original_amended.2 false false initSt _ _ ['a'] ['b'] rfl rfl⟩

/-- C10: calling the middleware-mode engine's `parse` with a non-string
value raises the `TypeError` "expected a string" before any engine state
(original buffer, input buffer, node list) is modified — the returned
state is exactly the state before the call. -/
theorem c10_non_string (fns : List MW) (fuel : Nat) (st : SState) (v : JSVal)
    (hv : v.isString = false) :
    sparse fns fuel st v = some (st, some SErr.typeError) := by
  cases v with
  | str s => cases hv
  | num n => rfl
  | boolean b => rfl
  | undef => rfl

/-- Witness for C10 at the number `3`. -/
theorem c10_witness :
    sparse [] 0 sInit (JSVal.num 3) = some (sInit, some SErr.typeError) :=
  c10_non_string [] 0 sInit (JSVal.num 3) rfl
